import Mathlib

/-!
Shallow embedding of `intel/topology.py` (CPU-Manager-for-Kubernetes).

The Python module builds a socket → core → logical-CPU hierarchy from the
text output of `lscpu -p` plus the kernel boot-parameter line, and offers
two core-allocation strategies (`packed`, `spread`).

Modelling conventions:
* Python `str` values are handled through their character lists
  (`String.data`), with structural recursions mirroring `str.split`,
  `str.startswith` and `int(...)`, so that everything evaluates inside
  the kernel.
* Python `dict` / `OrderedDict` values are association lists
  `List (Int × _)` in insertion order; assignment `d[k] = v` is `dinsert`
  (replace in place when the key exists, append otherwise), exactly the
  CPython ordering behaviour.
* Code that can raise (`int(...)` with a bad literal, indexing a short
  row) returns `Option`, with `none` for the propagated exception.
-/

set_option linter.unusedVariables false

/-- Python `str.split(sep)` for a one-character separator, generalised to a
character predicate.  Empty pieces are kept (CPython keeps them when an
explicit separator is given) and the result is never the empty list. -/
def splitP (p : Char → Bool) : List Char → List (List Char)
  | [] => [[]]
  | c :: cs =>
    match splitP p cs with
    | [] => [[c]]
    | t :: ts => if p c then [] :: t :: ts else (c :: t) :: ts

/-- Python `str.split(sep)` with a one-character separator. -/
def splitCh (sep : Char) (cs : List Char) : List (List Char) :=
  splitP (fun c => c == sep) cs

/-- The ASCII whitespace characters recognised by Python `str.split()`. -/
def isPyWs (c : Char) : Bool :=
  c == ' ' || c == '\t' || c == '\n' || c == '\r' || c == '\x0b' || c == '\x0c'

/-- Python `str.split()` with no argument: split on whitespace runs and
drop empty fields.  This also absorbs the preceding `rstrip()` in
`parse_isolcpus`, which only removes trailing whitespace that `split()`
would ignore anyway. -/
def pySplitWs (cs : List Char) : List (List Char) :=
  (splitP isPyWs cs).filter (fun t => !t.isEmpty)

/-- Strip leading and trailing whitespace, as `int(str)` does. -/
def pyStrip (cs : List Char) : List Char :=
  ((cs.dropWhile isPyWs).reverse.dropWhile isPyWs).reverse

/-- Decimal digits to a number, `none` on the first non-digit. -/
def digitsValAux (acc : Nat) : List Char → Option Nat
  | [] => some acc
  | c :: cs =>
    if c.isDigit then digitsValAux (acc * 10 + (c.toNat - '0'.toNat)) cs
    else none

/-- Python `int(str)`: surrounding whitespace, an optional sign, then at
least one ASCII decimal digit.  `none` models the `ValueError` raised on
anything else.  (CPython additionally accepts digit-group underscores and
non-ASCII digits; no input handled by this code base uses either.) -/
def pyIntChars (cs : List Char) : Option Int :=
  match pyStrip cs with
  | [] => none
  | '+' :: rest =>
    if rest.isEmpty then none else (digitsValAux 0 rest).map (fun n => (n : Int))
  | '-' :: rest =>
    if rest.isEmpty then none else (digitsValAux 0 rest).map (fun n => -(n : Int))
  | rest => (digitsValAux 0 rest).map (fun n => (n : Int))

/-- Python `range(a, b)` over integers, as the list `[a, a+1, ..., b-1]`. -/
def pyRange (a b : Int) : List Int :=
  (List.range (b - a).toNat).map (fun i => a + (i : Int))

/-- `parse_cpus_from_isolcpus` (topology.py:282).  Walks the comma-split
tokens of an `isolcpus=` / `rcu_nocbs=` value: a token without `-` must be
an integer; a token splitting on `-` into exactly two parts is an
inclusive range; a token splitting into any other number of parts is
silently skipped.  `none` models the `ValueError` that `int(...)` raises
on a non-integer component. -/
def parse_cpus_from_isolcpus : List (List Char) → Option (List Int)
  | [] => some []
  | tok :: rest =>
    if tok.contains '-' then
      match splitCh '-' tok with
      | [a, b] => do
        let x ← pyIntChars a
        let y ← pyIntChars b
        let r ← parse_cpus_from_isolcpus rest
        pure (pyRange x (y + 1) ++ r)
      | _ => parse_cpus_from_isolcpus rest
    else do
      let n ← pyIntChars tok
      let r ← parse_cpus_from_isolcpus rest
      pure (n :: r)

/-- The field loop of `parse_isolcpus` (topology.py:259): accumulate the
expansions of every `isolcpus=` value into the first component and of
every `rcu_nocbs=` value into the second.  Fields that do not split on
`=` into exactly two parts are skipped.  (The two `if key == ...` tests
in the source are mutually exclusive, so an `else if` chain is
equivalent.) -/
def collectAux (isol_cpus nocbs_cpus : List Int) :
    List (List Char) → Option (List Int × List Int)
  | [] => some (isol_cpus, nocbs_cpus)
  | field :: rest =>
    match splitCh '=' field with
    | [key, value] =>
      if key = "isolcpus".data then do
        let cs ← parse_cpus_from_isolcpus (splitCh ',' value)
        collectAux (isol_cpus ++ cs) nocbs_cpus rest
      else if key = "rcu_nocbs".data then do
        let cs ← parse_cpus_from_isolcpus (splitCh ',' value)
        collectAux isol_cpus (nocbs_cpus ++ cs) rest
      else collectAux isol_cpus nocbs_cpus rest
    | _ => collectAux isol_cpus nocbs_cpus rest

/-- Deduplication keeping the first occurrence of each element, in order
of first appearance.  This stands for Python `list(set(cpus))`, whose
element order is unspecified; all claims about the result are stated up
to membership. -/
def firstSeen : List Int → List Int
  | [] => []
  | x :: xs => x :: (firstSeen xs).filter (fun y => decide (y ≠ x))

/-- `parse_isolcpus` (topology.py:247).  Returns the isolated cpu ids
derived from the boot-parameter line, `none` when the Python code would
raise. -/
def parse_isolcpus (cmdline : String) : Option (List Int) := do
  let fields := pySplitWs cmdline.data
  let (isol_cpus, nocbs_cpus) ← collectAux [] [] fields
  let cpus :=
    if isol_cpus ≠ [] ∧ nocbs_cpus ≠ [] then
      nocbs_cpus.filter (fun x => decide (x ∉ isol_cpus))
    else []
  pure (firstSeen cpus)

/-- A logical CPU (topology.py:179). -/
structure CPU where
  cpu_id : Int
  isolated : Bool
deriving DecidableEq

/-- A physical core: id, mutable pool label, ordered mapping
cpu_id → CPU (topology.py:145). -/
structure Core where
  core_id : Int
  pool : Option String
  cpus : List (Int × CPU)
deriving DecidableEq

/-- A socket: id plus ordered mapping core_id → Core (topology.py:109). -/
structure Socket where
  socket_id : Int
  cores : List (Int × Core)
deriving DecidableEq

/-- The whole machine: mapping socket_id → Socket (topology.py:34). -/
structure Platform where
  sockets : List (Int × Socket)
deriving DecidableEq

/-- Insert `x` into a list sorted by `key`, before the first strictly
greater key (so the overall sort below is stable, as Python `sorted`). -/
def insertByKey (key : α → Int) (x : α) : List α → List α
  | [] => [x]
  | y :: ys => if key x ≤ key y then x :: y :: ys else y :: insertByKey key x ys

/-- Stable insertion sort by an integer key: Python
`sorted(..., key=...)`. -/
def sortByKey (key : α → Int) : List α → List α
  | [] => []
  | x :: xs => insertByKey key x (sortByKey key xs)

/-- `CPU.__init__`: a CPU starts non-isolated. -/
def CPU.init (cpu_id : Int) : CPU := { cpu_id := cpu_id, isolated := false }

/-- `Core.__init__`: sort the supplied cpu mapping by the value cpu_id;
`pool` starts unset.  (`parse` always calls this with no cpus, in which
case nothing is sorted.) -/
def Core.init (core_id : Int) (cpus : List (Int × CPU)) : Core :=
  { core_id := core_id, pool := none,
    cpus := sortByKey (fun q => q.2.cpu_id) cpus }

/-- `Socket.__init__`: sort the supplied core mapping by the value
core_id.  (`parse` always calls this with no cores.) -/
def Socket.init (socket_id : Int) (cores : List (Int × Core)) : Socket :=
  { socket_id := socket_id,
    cores := sortByKey (fun q => q.2.core_id) cores }

/-- Dictionary lookup `d[k]` on an association list. -/
def dlookup (k : Int) : List (Int × α) → Option α
  | [] => none
  | q :: rest => if q.1 = k then some q.2 else dlookup k rest

/-- Dictionary assignment `d[k] = v`: replace in place when the key is
present, append otherwise (CPython dict ordering). -/
def dinsert (k : Int) (v : α) : List (Int × α) → List (Int × α)
  | [] => [(k, v)]
  | q :: rest => if q.1 = k then (k, v) :: rest else q :: dinsert k v rest

/-- One data line of `parse` (topology.py:207): split on commas, read
fields 0, 1, 2 as cpu_id, core_id, socket_id.  `none` models the
IndexError / ValueError on a short or non-integer row. -/
def parseLine (line : List Char) : Option (Int × Int × Int) := do
  let cpuinfo := splitCh ',' line
  let f2 ← cpuinfo[2]?
  let f1 ← cpuinfo[1]?
  let f0 ← cpuinfo[0]?
  let socket_id ← pyIntChars f2
  let core_id ← pyIntChars f1
  let cpu_id ← pyIntChars f0
  pure (cpu_id, core_id, socket_id)

/-- The body of the `parse` loop for one accepted line
(topology.py:209-225): lazily create the socket and the core, then store
a CPU that is isolated exactly when its id is in `isolated_cpus`.  The
in-place mutations of the Python objects amount to re-storing the updated
socket at its existing position. -/
def parseStep (isolated_cpus : List Int) (sockets : List (Int × Socket))
    (t : Int × Int × Int) : List (Int × Socket) :=
  let cpu_id := t.1
  let core_id := t.2.1
  let socket_id := t.2.2
  let socket := (dlookup socket_id sockets).getD (Socket.init socket_id [])
  let core := (dlookup core_id socket.cores).getD (Core.init core_id [])
  let cpu : CPU := { cpu_id := cpu_id, isolated := decide (cpu_id ∈ isolated_cpus) }
  let core' : Core := { core with cpus := dinsert cpu_id cpu core.cpus }
  let socket' : Socket := { socket with cores := dinsert core_id core' socket.cores }
  dinsert socket_id socket' sockets

/-- The line loop of `parse`: skip empty lines and lines starting with
`#`, process the rest. -/
def parseLinesAux (isolated_cpus : List Int) :
    List (Int × Socket) → List (List Char) → Option (List (Int × Socket))
  | sockets, [] => some sockets
  | sockets, line :: rest =>
    if line ≠ [] ∧ line.head? ≠ some '#' then do
      let t ← parseLine line
      parseLinesAux isolated_cpus (parseStep isolated_cpus sockets t) rest
    else parseLinesAux isolated_cpus sockets rest

/-- `parse` (topology.py:199).  `isolated_cpus = none` models the Python
default `None`; the falsy test `if not isolated_cpus` sends both `None`
and the empty list to `[]`. -/
def parse (lscpu_output : String) (isolated_cpus : Option (List Int)) :
    Option Platform := do
  let iso := isolated_cpus.getD []
  let sockets ← parseLinesAux iso [] (splitCh '\n' lscpu_output.data)
  pure { sockets := sockets }

/-- `Core.is_isolated` (topology.py:157): false for an empty cpu mapping,
otherwise true iff every stored CPU is isolated.  (The source iterates
the dict keys and looks each one up; with the unique keys of a dict that
is exactly a pass over the stored values.) -/
def Core.is_isolated (c : Core) : Bool :=
  if c.cpus.length = 0 then false
  else c.cpus.all (fun q => q.2.isolated)

/-- `Socket.get_cores` (topology.py:123): the core values, in mapping
order, as a fresh list. -/
def Socket.get_cores (s : Socket) : List Core :=
  s.cores.map Prod.snd

/-- `Socket.get_isolated_cores` (topology.py:126). -/
def Socket.get_isolated_cores (s : Socket) : List Core :=
  (s.cores.map Prod.snd).filter Core.is_isolated

/-- `Socket.get_shared_cores` (topology.py:129). -/
def Socket.get_shared_cores (s : Socket) : List Core :=
  (s.cores.map Prod.snd).filter (fun c => !c.is_isolated)

/-- `Socket.has_isolated_cores` (topology.py:117). -/
def Socket.has_isolated_cores (s : Socket) : Bool :=
  (s.cores.map Prod.snd).any Core.is_isolated

/-- The per-socket core list chosen by the `isolated_cores` flag. -/
def Socket.selCores (s : Socket) (isolated_cores : Bool) : List Core :=
  if isolated_cores then s.get_isolated_cores else s.get_cores

/-- `Platform.allocate_packed` (topology.py:66): `cores = []`, then
`cores += socket.get_[isolated_]cores()` socket by socket. -/
def Platform.allocate_packed (p : Platform) (isolated_cores : Bool) : List Core :=
  p.sockets.foldl (fun cores q => cores ++ q.2.selCores isolated_cores) []

/-- The `socket_cores` dictionary built by the first loop of
`allocate_spread` (topology.py:79-84): one fresh core list per socket,
keyed by socket id, in platform iteration order. -/
def Platform.socket_cores (p : Platform) (isolated_cores : Bool) :
    List (Int × List Core) :=
  p.sockets.map (fun q => (q.1, q.2.selCores isolated_cores))

/-- One pass of the inner `for socket in sockets` loop of
`allocate_spread` (topology.py:87-92), over a snapshot of the current
keys: an entry with an empty list is deleted, otherwise its head is
emitted and deleted.  Returns (emitted cores, remaining dictionary). -/
def onePass : List (Int × List α) → List α × List (Int × List α)
  | [] => ([], [])
  | (s, []) :: rest => onePass rest
  | (s, c :: cs) :: rest =>
    let r := onePass rest
    (c :: r.1, (s, cs) :: r.2)

/-- Termination measure for the `while` loop: total remaining cores plus
number of dictionary entries. -/
def spreadMeasure (st : List (Int × List α)) : Nat :=
  (st.map (fun q => q.2.length + 1)).sum

/-- The `while len(socket_cores) > 0` loop, structurally recursive on a
fuel argument so that it evaluates inside the kernel. -/
def spreadLoopF : Nat → List (Int × List α) → List α
  | 0, _ => []
  | _ + 1, [] => []
  | n + 1, st =>
    let r := onePass st
    r.1 ++ spreadLoopF n r.2

/-- The `while` loop of `allocate_spread`, run with enough fuel
(`spreadMeasure` strictly decreases at every pass, see
`spreadLoopF_stable` below). -/
def spreadLoop (st : List (Int × List α)) : List α :=
  spreadLoopF (spreadMeasure st) st

/-- `Platform.allocate_spread` (topology.py:75). -/
def Platform.allocate_spread (p : Platform) (isolated_cores : Bool) : List Core :=
  spreadLoop (p.socket_cores isolated_cores)

/-- `Platform.get_cores_general` (topology.py:55): normalise an
unrecognised mode to "packed", then dispatch.  The final branch is
unreachable (the Python function would fall off the end and return
`None`). -/
def Platform.get_cores_general (p : Platform) (mode : String) (isolated : Bool) :
    List Core :=
  let m := if ¬ (mode ∈ (["spread", "packed"] : List String)) then "packed" else mode
  if m = "packed" then p.allocate_packed isolated
  else if m = "spread" then p.allocate_spread isolated
  else []

/-- `Platform.get_cores` (topology.py:49). -/
def Platform.get_cores (p : Platform) (mode : String) : List Core :=
  p.get_cores_general mode false

/-- `Platform.get_isolated_cores` (topology.py:52). -/
def Platform.get_isolated_cores (p : Platform) (mode : String) : List Core :=
  p.get_cores_general mode true

/-- A value token that cannot make `int(...)` raise: either no `-` and a
valid integer, or a two-part range with two valid integer endpoints, or a
`-`-containing token of any other arity (which the source skips before
converting anything). -/
def tokenOK (tok : List Char) : Bool :=
  if tok.contains '-' then
    match splitCh '-' tok with
    | [a, b] => (pyIntChars a).isSome && (pyIntChars b).isSome
    | _ => true
  else (pyIntChars tok).isSome

/-- A boot-parameter field that cannot make the parse raise: fields that
do not split on `=` into two parts are skipped, fields with an
irrelevant key are ignored, and for `isolcpus` / `rcu_nocbs` every comma
token must be `tokenOK`. -/
def fieldOK (field : List Char) : Bool :=
  match splitCh '=' field with
  | [key, value] =>
    if key = "isolcpus".data ∨ key = "rcu_nocbs".data then
      (splitCh ',' value).all tokenOK
    else true
  | _ => true

/-!
State-passing variants for the frame claim.  The only memory the
allocation queries could disturb is the Platform tree itself; the Python
methods create fresh lists (`[... for ... in ...]`, `cores + ...`,
`socket_cores[socket] = ...`) and never assign to any attribute of a
Platform, Socket, Core or CPU.  The `_st` variants below thread every
socket object that a query touches back out and rebuild the platform
from them, so a translation of any mutating step would surface as a
changed rebuilt platform.
-/

/-- `Socket.get_cores`, also returning the socket it leaves behind (the
list comprehension allocates a fresh list; the socket is untouched). -/
def Socket.get_cores_st (s : Socket) : List Core × Socket :=
  (s.cores.map Prod.snd, s)

/-- `Socket.get_isolated_cores`, state-passing form. -/
def Socket.get_isolated_cores_st (s : Socket) : List Core × Socket :=
  ((s.cores.map Prod.snd).filter Core.is_isolated, s)

/-- The accessor chosen by the `isolated_cores` flag, state-passing. -/
def Socket.selCores_st (s : Socket) (isolated_cores : Bool) : List Core × Socket :=
  if isolated_cores then s.get_isolated_cores_st else s.get_cores_st

/-- `Platform.allocate_packed`, rebuilding the platform from the sockets
returned by each accessor call. -/
def Platform.allocate_packed_st (p : Platform) (isolated_cores : Bool) :
    List Core × Platform :=
  let r := p.sockets.foldl
    (fun acc q =>
      let g := q.2.selCores_st isolated_cores
      (acc.1 ++ g.1, acc.2 ++ [(q.1, g.2)]))
    ([], [])
  (r.1, { sockets := r.2 })

/-- `Platform.allocate_spread`, rebuilding the platform from the sockets
returned while building the local `socket_cores` dictionary; the `while`
loop then works on that local dictionary only. -/
def Platform.allocate_spread_st (p : Platform) (isolated_cores : Bool) :
    List Core × Platform :=
  let sc := p.sockets.map (fun q =>
    let g := q.2.selCores_st isolated_cores
    ((q.1, g.1), (q.1, g.2)))
  (spreadLoop (sc.map Prod.fst), { sockets := sc.map Prod.snd })

/-- `Platform.get_cores_general`, state-passing form. -/
def Platform.get_cores_general_st (p : Platform) (mode : String) (isolated : Bool) :
    List Core × Platform :=
  let m := if ¬ (mode ∈ (["spread", "packed"] : List String)) then "packed" else mode
  if m = "packed" then p.allocate_packed_st isolated
  else if m = "spread" then p.allocate_spread_st isolated
  else ([], p)

/-- `Platform.get_cores`, state-passing form. -/
def Platform.get_cores_st (p : Platform) (mode : String) : List Core × Platform :=
  p.get_cores_general_st mode false

/-- `Platform.get_isolated_cores`, state-passing form. -/
def Platform.get_isolated_cores_st (p : Platform) (mode : String) :
    List Core × Platform :=
  p.get_cores_general_st mode true

/-- The keys of the dictionary entries that still hold at least one
element: exactly the sockets the next pass of the spread loop will emit
a core from (and also the keys surviving into the next state). -/
def roundKeys : List (Int × List α) → List Int
  | [] => []
  | (s, []) :: rest => roundKeys rest
  | (s, _ :: _) :: rest => s :: roundKeys rest

/-- Every element of every entry list carries the key of its entry. -/
def TaggedOK (st : List (Int × List (Int × β))) : Prop :=
  ∀ q ∈ st, ∀ z ∈ q.2, z.1 = q.1

/-- Tag every element of every entry list with the key of its entry. -/
def tagEntries (st : List (Int × List β)) : List (Int × List (Int × β)) :=
  st.map (fun q => (q.1, q.2.map (fun v => (q.1, v))))

/-- The `socket_cores` dictionary with every core tagged by the socket id
it came from: the instrumented form used to state the round-robin claim
about `allocate_spread`. -/
def Platform.taggedCores (p : Platform) (isolated_cores : Bool) :
    List (Int × List (Int × Core)) :=
  tagEntries (p.socket_cores isolated_cores)

/-- `allocate_spread` run on the tagged dictionary: same loop, but each
emitted core carries the id of the socket it was taken from. -/
def Platform.spreadPairs (p : Platform) (isolated_cores : Bool) :
    List (Int × Core) :=
  spreadLoop (p.taggedCores isolated_cores)

/-- The lines of the topology text that `parse` processes: non-empty and
not starting with `#`. -/
def acceptedLines (lscpu_output : String) : List (List Char) :=
  (splitCh '\n' lscpu_output.data).filter
    (fun l => decide (l ≠ [] ∧ l.head? ≠ some '#'))

/-- The (cpu_id, core_id, socket_id) triples read from a list of
accepted lines, `none` when some line fails to parse. -/
def triplesOf : List (List Char) → Option (List (Int × Int × Int))
  | [] => some []
  | l :: ls => do
    let t ← parseLine l
    let r ← triplesOf ls
    pure (t :: r)

/-! ### Basic lemmas -/

lemma mem_firstSeen (x : Int) : ∀ l : List Int, x ∈ firstSeen l ↔ x ∈ l := by
  intro l
  induction l with
  | nil => simp [firstSeen]
  | cons y ys ih =>
    by_cases hxy : x = y
    · simp [firstSeen, hxy]
    · simp [firstSeen, List.mem_filter, hxy, ih]

/-! ### C8 -/

/-- C8: `Core.is_isolated()` returns true iff the Core contains at least
one CPU and every contained CPU has `isolated = true`; in particular a
Core with zero CPUs is never isolated. -/
theorem claim_C8 (c : Core) :
    c.is_isolated = true ↔ (c.cpus ≠ [] ∧ ∀ q ∈ c.cpus, q.2.isolated = true) := by
  rcases c with ⟨i, po, cpus⟩
  cases cpus with
  | nil => simp [Core.is_isolated]
  | cons q rest => simp [Core.is_isolated, List.all_eq_true]

/-! ### C7 -/

/-- C7: for every mode string outside packed and spread,
`get_cores_general` returns exactly its result for mode "packed" (the
unrecognized mode degrades to packed, it is not a failure). -/
theorem claim_C7 (p : Platform) (mode : String) (isolated : Bool)
    (h1 : mode ≠ "packed") (h2 : mode ≠ "spread") :
    p.get_cores_general mode isolated = p.get_cores_general "packed" isolated := by
  simp [Platform.get_cores_general, h1, h2]

theorem claim_C7_witness :
    ("vertical" ≠ "packed") ∧ ("vertical" ≠ "spread") ∧
    (Platform.mk []).get_cores_general "vertical" false =
      (Platform.mk []).get_cores_general "packed" false :=
  ⟨by decide, by decide, claim_C7 (Platform.mk []) "vertical" false (by decide) (by decide)⟩

/-! ### C3 (corrected): a non-integer id token aborts the whole parse -/

theorem claim_C3_counterexample : parse_isolcpus "isolcpus=abc" = none := by decide

lemma parse_cpus_isSome :
    ∀ toks : List (List Char), toks.all tokenOK = true →
      (parse_cpus_from_isolcpus toks).isSome = true := by
  intro toks
  induction toks with
  | nil => simp [parse_cpus_from_isolcpus]
  | cons tok rest ih =>
    intro h
    rw [List.all_cons, Bool.and_eq_true] at h
    obtain ⟨h1, h2⟩ := h
    unfold tokenOK at h1
    unfold parse_cpus_from_isolcpus
    by_cases hd : tok.contains '-'
    · rw [if_pos hd] at h1 ⊢
      cases hsp : splitCh '-' tok with
      | nil => exact ih h2
      | cons a t =>
        cases t with
        | nil => exact ih h2
        | cons b t2 =>
          cases t2 with
          | cons c t3 => exact ih h2
          | nil =>
            rw [hsp] at h1
            change ((pyIntChars a).isSome && (pyIntChars b).isSome) = true at h1
            rw [Bool.and_eq_true] at h1
            obtain ⟨x, hx⟩ := Option.isSome_iff_exists.mp h1.1
            obtain ⟨y, hy⟩ := Option.isSome_iff_exists.mp h1.2
            obtain ⟨r, hr⟩ := Option.isSome_iff_exists.mp (ih h2)
            show (do
              let x ← pyIntChars a
              let y ← pyIntChars b
              let r ← parse_cpus_from_isolcpus rest
              pure (pyRange x (y + 1) ++ r) : Option (List Int)).isSome = true
            simp [hx, hy, hr]
    · rw [if_neg hd] at h1 ⊢
      obtain ⟨x, hx⟩ := Option.isSome_iff_exists.mp h1
      obtain ⟨r, hr⟩ := Option.isSome_iff_exists.mp (ih h2)
      simp [hx, hr]

lemma collect_isSome :
    ∀ (fields : List (List Char)) (i n : List Int),
      fields.all fieldOK = true → (collectAux i n fields).isSome = true := by
  intro fields
  induction fields with
  | nil => intro i n _; simp [collectAux]
  | cons f rest ih =>
    intro i n h
    rw [List.all_cons, Bool.and_eq_true] at h
    obtain ⟨h1, h2⟩ := h
    unfold fieldOK at h1
    unfold collectAux
    cases hsp : splitCh '=' f with
    | nil => exact ih _ _ h2
    | cons key t =>
      cases t with
      | nil => exact ih _ _ h2
      | cons value t2 =>
        cases t2 with
        | cons c t3 => exact ih _ _ h2
        | nil =>
          rw [hsp] at h1
          change (if key = "isolcpus".data ∨ key = "rcu_nocbs".data then
            (splitCh ',' value).all tokenOK else true) = true at h1
          show (if key = "isolcpus".data then do
              let cs ← parse_cpus_from_isolcpus (splitCh ',' value)
              collectAux (i ++ cs) n rest
            else if key = "rcu_nocbs".data then do
              let cs ← parse_cpus_from_isolcpus (splitCh ',' value)
              collectAux i (n ++ cs) rest
            else collectAux i n rest).isSome = true
          by_cases hk1 : key = "isolcpus".data
          · rw [if_pos (Or.inl hk1)] at h1
            rw [if_pos hk1]
            obtain ⟨cs, hcs⟩ := Option.isSome_iff_exists.mp (parse_cpus_isSome _ h1)
            simp only [hcs, Option.some_bind]
            exact ih _ _ h2
          · by_cases hk2 : key = "rcu_nocbs".data
            · rw [if_pos (Or.inr hk2)] at h1
              rw [if_neg hk1, if_pos hk2]
              obtain ⟨cs, hcs⟩ := Option.isSome_iff_exists.mp (parse_cpus_isSome _ h1)
              simp only [hcs, Option.some_bind]
              exact ih _ _ h2
            · rw [if_neg hk1, if_neg hk2]
              exact ih _ _ h2

/-- C3 (amended): `parse_isolcpus` silently skips a `key=value` field
with the wrong number of `=` parts and a range token with the wrong
number of `-` parts, and the parse of the remaining well-formed tokens
succeeds; but a non-integer id component (bare token or range endpoint)
raises, it is not skipped (see `claim_C3_counterexample`).  First part:
the parse succeeds whenever every relevant integer component is valid;
second part: a concrete input whose malformed field and malformed range
are both skipped while the rest is parsed. -/
theorem claim_C3 :
    (∀ cmdline : String, (pySplitWs cmdline.data).all fieldOK = true →
      (parse_isolcpus cmdline).isSome = true) ∧
    parse_isolcpus "foo isolcpus=1-2-3,5 rcu_nocbs=4" = some [4] := by
  constructor
  · intro t h
    unfold parse_isolcpus
    obtain ⟨⟨i, n⟩, hin⟩ :=
      Option.isSome_iff_exists.mp (collect_isSome (pySplitWs t.data) [] [] h)
    simp [hin]
  · decide

theorem claim_C3_witness :
    ((pySplitWs ("isolcpus=3").data).all fieldOK = true) ∧
    (parse_isolcpus "isolcpus=3").isSome = true :=
  ⟨by decide, claim_C3.1 "isolcpus=3" (by decide)⟩

/-! ### C2 -/

/-- C2: when both the `isolcpus`-derived and `rcu_nocbs`-derived id lists
are non-empty, the result is exactly `nocbs_cpus` minus `isol_cpus` (as a
set); when only one key (or neither) yielded ids the result is empty.
In particular "isolcpus=0-1" alone yields the empty result, and
"isolcpus=0,2-3 rcu_nocbs=1,2,3,4" yields exactly the set containing
1 and 4. -/
theorem claim_C2 :
    (∀ (cmdline : String) (isol_cpus nocbs_cpus : List Int),
      collectAux [] [] (pySplitWs cmdline.data) = some (isol_cpus, nocbs_cpus) →
      ((isol_cpus ≠ [] ∧ nocbs_cpus ≠ []) →
        ∃ r, parse_isolcpus cmdline = some r ∧
          ∀ x : Int, x ∈ r ↔ (x ∈ nocbs_cpus ∧ x ∉ isol_cpus)) ∧
      ((isol_cpus = [] ∨ nocbs_cpus = []) → parse_isolcpus cmdline = some [])) ∧
    parse_isolcpus "isolcpus=0-1" = some [] ∧
    (∃ r, parse_isolcpus "isolcpus=0,2-3 rcu_nocbs=1,2,3,4" = some r ∧
      ∀ x : Int, x ∈ r ↔ (x = 1 ∨ x = 4)) := by
  refine ⟨?_, by decide, ⟨[1, 4], by decide, ?_⟩⟩
  · intro t i n hin
    constructor
    · intro hne
      refine ⟨firstSeen (n.filter fun x => decide (x ∉ i)), ?_, ?_⟩
      · unfold parse_isolcpus
        simp [hin, hne.1, hne.2]
      · intro x
        rw [mem_firstSeen]
        simp [List.mem_filter]
    · intro hor
      unfold parse_isolcpus
      have hcond : ¬ (i ≠ [] ∧ n ≠ []) := by
        rcases hor with h | h
        · exact fun hc => hc.1 h
        · exact fun hc => hc.2 h
      simp [hin, hcond, firstSeen]
  · intro x
    simp

theorem claim_C2_witness :
    (collectAux [] [] (pySplitWs ("isolcpus=5 rcu_nocbs=5,6").data) =
      some ([5], [5, 6])) ∧
    ∃ r, parse_isolcpus "isolcpus=5 rcu_nocbs=5,6" = some r ∧
      ∀ x : Int, x ∈ r ↔ (x ∈ [(5 : Int), 6] ∧ x ∉ [(5 : Int)]) :=
  ⟨by decide,
    (claim_C2.1 "isolcpus=5 rcu_nocbs=5,6" [5] [5, 6] (by decide)).1
      ⟨by decide, by decide⟩⟩

/-! ### The spread loop: unfolding and permutation structure -/

lemma spreadMeasure_cons (q : Int × List α) (rest : List (Int × List α)) :
    spreadMeasure (q :: rest) = q.2.length + 1 + spreadMeasure rest := by
  simp [spreadMeasure]

lemma spreadMeasure_pos (st : List (Int × List α)) (h : st ≠ []) :
    0 < spreadMeasure st := by
  cases st with
  | nil => exact absurd rfl h
  | cons q rest => rw [spreadMeasure_cons]; omega

lemma onePass_snd_measure_le :
    ∀ st : List (Int × List α), spreadMeasure (onePass st).2 ≤ spreadMeasure st := by
  intro st
  induction st with
  | nil => exact le_refl _
  | cons q rest ih =>
    rcases q with ⟨s, l⟩
    cases l with
    | nil =>
      show spreadMeasure (onePass rest).2 ≤ _
      rw [spreadMeasure_cons]
      omega
    | cons c cs =>
      show spreadMeasure ((s, cs) :: (onePass rest).2) ≤ _
      rw [spreadMeasure_cons, spreadMeasure_cons]
      simp only [List.length_cons]
      omega

lemma onePass_snd_measure_lt :
    ∀ st : List (Int × List α), st ≠ [] →
      spreadMeasure (onePass st).2 < spreadMeasure st := by
  intro st
  induction st with
  | nil => intro h; exact absurd rfl h
  | cons q rest ih =>
    intro _
    rcases q with ⟨s, l⟩
    cases l with
    | nil =>
      show spreadMeasure (onePass rest).2 < _
      rw [spreadMeasure_cons]
      have := onePass_snd_measure_le rest
      omega
    | cons c cs =>
      show spreadMeasure ((s, cs) :: (onePass rest).2) < _
      rw [spreadMeasure_cons, spreadMeasure_cons]
      have := onePass_snd_measure_le rest
      simp only [List.length_cons]
      omega

/-- `spreadLoopF` gives the same answer for every fuel at least
`spreadMeasure`. -/
lemma spreadLoopF_stable :
    ∀ k : Nat, ∀ st : List (Int × List α), spreadMeasure st ≤ k →
      spreadLoopF k st = spreadLoopF (spreadMeasure st) st := by
  intro k
  induction k using Nat.strong_induction_on with
  | _ k ih =>
    intro st hle
    cases st with
    | nil => cases k <;> rfl
    | cons q rest =>
      have hpos := spreadMeasure_pos (q :: rest) (by simp)
      cases k with
      | zero => omega
      | succ k' =>
        cases hm : spreadMeasure (q :: rest) with
        | zero => omega
        | succ m' =>
          show (onePass (q :: rest)).1 ++ spreadLoopF k' (onePass (q :: rest)).2 =
            (onePass (q :: rest)).1 ++ spreadLoopF m' (onePass (q :: rest)).2
          have hlt := onePass_snd_measure_lt (q :: rest) (by simp)
          rw [ih k' (by omega) _ (by omega), ih m' (by omega) _ (by omega)]

lemma spreadLoop_nil : spreadLoop ([] : List (Int × List α)) = [] := rfl

/-- One unfolding of the `while` loop. -/
lemma spreadLoop_cons (st : List (Int × List α)) (h : st ≠ []) :
    spreadLoop st = (onePass st).1 ++ spreadLoop (onePass st).2 := by
  unfold spreadLoop
  cases st with
  | nil => exact absurd rfl h
  | cons q rest =>
    cases hm : spreadMeasure (q :: rest) with
    | zero =>
      have := spreadMeasure_pos (q :: rest) (by simp)
      omega
    | succ m' =>
      show (onePass (q :: rest)).1 ++ spreadLoopF m' (onePass (q :: rest)).2 = _
      have hlt := onePass_snd_measure_lt (q :: rest) (by simp)
      rw [spreadLoopF_stable m' _ (by omega)]

/-- One pass of the loop permutes the heads it emits to the front. -/
lemma onePass_perm :
    ∀ st : List (Int × List α),
      ((st.map (fun q => q.2)).flatten).Perm
        ((onePass st).1 ++ (((onePass st).2.map (fun q => q.2)).flatten)) := by
  intro st
  induction st with
  | nil => simp [onePass]
  | cons q rest ih =>
    rcases q with ⟨s, l⟩
    cases l with
    | nil =>
      simp only [List.map_cons, List.flatten_cons]
      show (([] : List α) ++ _).Perm
        ((onePass rest).1 ++ (((onePass rest).2.map (fun q => q.2)).flatten))
      simpa using ih
    | cons c cs =>
      simp only [List.map_cons, List.flatten_cons]
      show ((c :: cs) ++ _).Perm
        ((c :: (onePass rest).1) ++
          ((cs :: (onePass rest).2.map (fun q => q.2)).flatten))
      rw [List.flatten_cons, List.cons_append, List.cons_append]
      refine List.Perm.cons c ?_
      have hsw :
          (cs ++ ((onePass rest).1 ++
            ((onePass rest).2.map (fun q => q.2)).flatten)).Perm
          ((onePass rest).1 ++
            (cs ++ ((onePass rest).2.map (fun q => q.2)).flatten)) := by
        rw [← List.append_assoc, ← List.append_assoc]
        exact List.perm_append_comm.append_right _
      exact (ih.append_left cs).trans hsw

/-- The spread loop emits exactly the cores of the dictionary it is
given, as a permutation. -/
lemma spreadLoop_perm (st : List (Int × List α)) :
    (spreadLoop st).Perm ((st.map (fun q => q.2)).flatten) := by
  generalize hm : spreadMeasure st = m
  induction m using Nat.strong_induction_on generalizing st with
  | _ m ih =>
    by_cases h : st = []
    · subst h; simp [spreadLoop_nil]
    · subst hm
      rw [spreadLoop_cons st h]
      have hlt := onePass_snd_measure_lt st h
      have ihp := ih (spreadMeasure (onePass st).2) hlt (onePass st).2 rfl
      exact (ihp.append_left (onePass st).1).trans (onePass_perm st).symm

/-! ### C5 and C6: the two allocation orders -/

lemma foldl_append_flatten {β : Type} (f : β → List Core) :
    ∀ (l : List β) (init : List Core),
      l.foldl (fun acc q => acc ++ f q) init = init ++ (l.map f).flatten := by
  intro l
  induction l with
  | nil => intro init; simp
  | cons q rest ih =>
    intro init
    simp only [List.foldl_cons, List.map_cons, List.flatten_cons]
    rw [ih, List.append_assoc]

lemma packed_eq_flatten (p : Platform) (isolated : Bool) :
    p.allocate_packed isolated =
      (p.sockets.map (fun q => q.2.selCores isolated)).flatten := by
  unfold Platform.allocate_packed
  rw [foldl_append_flatten]
  simp

/-- C5: packed allocation is the concatenation, socket by socket in
Platform iteration order, of each socket's selected core list (in that
socket's core-mapping order); hence every core of an earlier socket
precedes every core of a later socket. -/
theorem claim_C5 (p : Platform) (isolated : Bool) :
    p.get_cores_general "packed" isolated = p.allocate_packed isolated ∧
    p.allocate_packed isolated =
      (p.sockets.map (fun q => q.2.selCores isolated)).flatten ∧
    (∀ (pre mid post : List (Int × Socket)) (s₁ s₂ : Int × Socket),
      p.sockets = pre ++ s₁ :: mid ++ s₂ :: post →
      ∃ u v, p.allocate_packed isolated = u ++ v ∧
        (s₁.2.selCores isolated).Sublist u ∧
        (s₂.2.selCores isolated).Sublist v) := by
  refine ⟨rfl, packed_eq_flatten p isolated, ?_⟩
  intro pre mid post s₁ s₂ hdec
  refine ⟨((pre ++ s₁ :: mid).map (fun q => q.2.selCores isolated)).flatten,
      ((s₂ :: post).map (fun q => q.2.selCores isolated)).flatten, ?_, ?_, ?_⟩
  · rw [packed_eq_flatten, hdec]
    simp [List.append_assoc]
  · have hmem : s₁.2.selCores isolated ∈
        (pre ++ s₁ :: mid).map (fun q => q.2.selCores isolated) :=
      List.mem_map_of_mem _ (by simp)
    exact (List.infix_of_mem_flatten hmem).sublist
  · simp only [List.map_cons, List.flatten_cons]
    exact List.sublist_append_left _ _

theorem claim_C5_witness :
    ∃ u v,
      (Platform.mk [(0, Socket.init 0 [(0, Core.init 0 [])]),
        (1, Socket.init 1 [(1, Core.init 1 [])])]).allocate_packed false = u ++ v ∧
      ((Socket.init 0 [(0, Core.init 0 [])]).selCores false).Sublist u ∧
      ((Socket.init 1 [(1, Core.init 1 [])]).selCores false).Sublist v :=
  (claim_C5 (Platform.mk [(0, Socket.init 0 [(0, Core.init 0 [])]),
      (1, Socket.init 1 [(1, Core.init 1 [])])]) false).2.2
    [] [] [] (0, Socket.init 0 [(0, Core.init 0 [])])
    (1, Socket.init 1 [(1, Core.init 1 [])]) rfl

/-- C6: for the same isolated flag, packed and spread allocation return
lists of the same length, equal to the total number of selected cores
across all sockets, and the two lists are permutations of each other. -/
theorem claim_C6 (p : Platform) (isolated : Bool) :
    (p.allocate_packed isolated).length =
      (p.sockets.map (fun q => (q.2.selCores isolated).length)).sum ∧
    (p.allocate_spread isolated).length =
      (p.sockets.map (fun q => (q.2.selCores isolated).length)).sum ∧
    (p.allocate_packed isolated).Perm (p.allocate_spread isolated) := by
  have hs : (p.allocate_spread isolated).Perm
      ((p.sockets.map (fun q => q.2.selCores isolated)).flatten) := by
    have h := spreadLoop_perm (p.socket_cores isolated)
    simpa [Platform.allocate_spread, Platform.socket_cores, List.map_map,
      Function.comp] using h
  have hlen : ((p.sockets.map (fun q => q.2.selCores isolated)).flatten).length =
      (p.sockets.map (fun q => (q.2.selCores isolated).length)).sum := by
    rw [List.length_flatten, List.map_map]
    rfl
  refine ⟨?_, ?_, ?_⟩
  · rw [packed_eq_flatten p isolated, hlen]
  · rw [hs.length_eq, hlen]
  · rw [packed_eq_flatten p isolated]
    exact hs.symm

/-! ### C9: allocation queries do not change the Platform -/

lemma selCores_st_fst (s : Socket) (isolated : Bool) :
    (s.selCores_st isolated).1 = s.selCores isolated := by
  cases isolated <;> rfl

lemma selCores_st_snd (s : Socket) (isolated : Bool) :
    (s.selCores_st isolated).2 = s := by
  cases isolated <;> rfl

lemma packed_st_foldl (isolated : Bool) :
    ∀ (l : List (Int × Socket)) (acc : List Core × List (Int × Socket)),
      (l.foldl
        (fun acc q =>
          let g := q.2.selCores_st isolated
          (acc.1 ++ g.1, acc.2 ++ [(q.1, g.2)]))
        acc)
      = (l.foldl (fun cores q => cores ++ q.2.selCores isolated) acc.1,
          acc.2 ++ l) := by
  intro l
  induction l with
  | nil => intro acc; simp
  | cons q rest ih =>
    intro acc
    simp only [List.foldl_cons]
    rw [ih]
    rw [selCores_st_fst, selCores_st_snd]
    simp [List.append_assoc]

lemma packed_st_spec (p : Platform) (isolated : Bool) :
    p.allocate_packed_st isolated = (p.allocate_packed isolated, p) := by
  unfold Platform.allocate_packed_st Platform.allocate_packed
  rw [packed_st_foldl]
  simp

lemma spread_st_spec (p : Platform) (isolated : Bool) :
    p.allocate_spread_st isolated = (p.allocate_spread isolated, p) := by
  have h1 : (p.allocate_spread_st isolated).1 = p.allocate_spread isolated := by
    unfold Platform.allocate_spread_st Platform.allocate_spread
      Platform.socket_cores
    simp only [List.map_map]
    congr 1
    apply List.map_congr_left
    intro q hq
    simp [Function.comp, selCores_st_fst]
  have h2 : (p.allocate_spread_st isolated).2 = p := by
    unfold Platform.allocate_spread_st
    simp only [List.map_map]
    have hmap : p.sockets.map
        ((Prod.snd) ∘ fun q : Int × Socket =>
          ((q.1, (q.2.selCores_st isolated).1), (q.1, (q.2.selCores_st isolated).2)))
        = p.sockets.map id := by
      apply List.map_congr_left
      intro q hq
      simp [Function.comp, selCores_st_snd]
    rw [hmap, List.map_id]
  exact Prod.ext h1 h2

lemma general_st_spec (p : Platform) (mode : String) (isolated : Bool) :
    p.get_cores_general_st mode isolated = (p.get_cores_general mode isolated, p) := by
  unfold Platform.get_cores_general_st Platform.get_cores_general
  by_cases hs : mode = "spread"
  · subst hs
    simp [spread_st_spec, show ("spread" : String) ≠ "packed" by decide]
  · by_cases hp : mode = "packed"
    · subst hp
      simp [packed_st_spec]
    · have hmem : ¬ (mode ∈ (["spread", "packed"] : List String)) := by
        simp [hs, hp]
      simp [hmem, packed_st_spec]

/-- C9: `get_cores`, `get_isolated_cores` and `get_cores_general` leave
the Platform unchanged, for every mode and isolated flag: in the
state-passing translation (which rebuilds the platform from the socket
left behind by every accessor on the call path, and in which `spread`
consumes the fresh per-call core lists of the local dictionary) the
final platform is the input platform and the returned cores are those of
the pure functions. -/
theorem claim_C9 (p : Platform) (mode : String) (isolated : Bool) :
    (p.get_cores_st mode).2 = p ∧
    (p.get_isolated_cores_st mode).2 = p ∧
    (p.get_cores_general_st mode isolated).2 = p ∧
    (p.get_cores_st mode).1 = p.get_cores mode ∧
    (p.get_isolated_cores_st mode).1 = p.get_isolated_cores mode ∧
    (p.get_cores_general_st mode isolated).1 = p.get_cores_general mode isolated := by
  refine ⟨?_, ?_, ?_, ?_, ?_, ?_⟩ <;>
    simp [Platform.get_cores_st, Platform.get_isolated_cores_st,
      Platform.get_cores, Platform.get_isolated_cores, general_st_spec]

/-! ### C10: parsing with no isolated collection -/

lemma dlookup_mem {β : Type} (k : Int) (v : β) :
    ∀ d : List (Int × β), dlookup k d = some v → (k, v) ∈ d := by
  intro d
  induction d with
  | nil => intro h; cases h
  | cons q rest ih =>
    intro h
    unfold dlookup at h
    by_cases hk : q.1 = k
    · rw [if_pos hk] at h
      cases h
      rw [← hk]
      exact List.mem_cons_self _ _
    · rw [if_neg hk] at h
      exact List.mem_cons_of_mem _ (ih h)

lemma dinsert_mem {β : Type} (k : Int) (v : β) :
    ∀ (d : List (Int × β)) (z : Int × β),
      z ∈ dinsert k v d → z = (k, v) ∨ z ∈ d := by
  intro d
  induction d with
  | nil =>
    intro z hz
    simp [dinsert] at hz
    exact Or.inl hz
  | cons q rest ih =>
    intro z hz
    unfold dinsert at hz
    by_cases hk : q.1 = k
    · rw [if_pos hk] at hz
      rcases List.mem_cons.mp hz with h | h
      · exact Or.inl h
      · exact Or.inr (List.mem_cons_of_mem _ h)
    · rw [if_neg hk] at hz
      rcases List.mem_cons.mp hz with h | h
      · exact Or.inr (h ▸ List.mem_cons_self _ _)
      · rcases ih z h with h' | h'
        · exact Or.inl h'
        · exact Or.inr (List.mem_cons_of_mem _ h')

/-- All CPUs produced by the line loop with an empty isolated collection
are non-isolated. -/
lemma parseLinesAux_not_isolated :
    ∀ (lines : List (List Char)) (acc : List (Int × Socket))
      (hacc : ∀ q ∈ acc, ∀ r ∈ q.2.cores, ∀ w ∈ r.2.cpus, w.2.isolated = false)
      (res : List (Int × Socket)),
      parseLinesAux [] acc lines = some res →
      ∀ q ∈ res, ∀ r ∈ q.2.cores, ∀ w ∈ r.2.cpus, w.2.isolated = false := by
  intro lines
  induction lines with
  | nil =>
    intro acc hacc res hres
    cases hres
    exact hacc
  | cons line rest ih =>
    intro acc hacc res hres
    unfold parseLinesAux at hres
    by_cases hl : line ≠ [] ∧ line.head? ≠ some '#'
    · rw [if_pos hl] at hres
      cases ht : parseLine line with
      | none => rw [ht] at hres; cases hres
      | some t =>
        rw [ht] at hres
        replace hres : parseLinesAux [] (parseStep [] acc t) rest = some res := hres
        refine ih (parseStep [] acc t) ?_ res hres
        -- the step preserves the invariant
        intro q hq r hr w hw
        unfold parseStep at hq
        rcases dinsert_mem _ _ _ _ hq with hq' | hq'
        · subst hq'
          simp only at hr
          rcases dinsert_mem _ _ _ _ hr with hr' | hr'
          · subst hr'
            simp only at hw
            rcases dinsert_mem _ _ _ _ hw with hw' | hw'
            · subst hw'
              simp
            · -- an existing cpu of the (possibly default) core
              rcases hc : dlookup t.2.1
                  ((dlookup t.2.2 acc).getD (Socket.init t.2.2 [])).cores with _ | core₀
              · rw [hc] at hw'
                simp [Core.init, sortByKey] at hw'
              · rw [hc] at hw'
                rcases hs : dlookup t.2.2 acc with _ | sock₀
                · rw [hs] at hc
                  simp [Socket.init, sortByKey, dlookup] at hc
                · rw [hs] at hc
                  simp only [Option.getD_some] at hc
                  exact hacc _ (dlookup_mem _ _ _ hs) _ (dlookup_mem _ _ _ hc) w hw'
          · -- an existing core of an existing socket
            rcases hs : dlookup t.2.2 acc with _ | sock₀
            · rw [hs] at hr'
              simp [Socket.init, sortByKey] at hr'
            · rw [hs] at hr'
              simp only [Option.getD_some] at hr'
              exact hacc _ (dlookup_mem _ _ _ hs) _ hr' w hw
        · exact hacc q hq' r hr w hw
    · rw [if_neg hl] at hres
      exact ih acc hacc res hres

/-- C10: `parse` with no isolated-CPU collection returns the same
Platform as `parse` with an empty collection, and every CPU it
constructs has `isolated = false`. -/
theorem claim_C10 (lscpu_output : String) :
    parse lscpu_output none = parse lscpu_output (some []) ∧
    ∀ pf, parse lscpu_output none = some pf →
      ∀ q ∈ pf.sockets, ∀ r ∈ q.2.cores, ∀ w ∈ r.2.cpus,
        w.2.isolated = false := by
  constructor
  · rfl
  · intro pf hpf q hq r hr w hw
    unfold parse at hpf
    simp only [Option.getD_none] at hpf
    cases hres : parseLinesAux [] [] (splitCh '\n' lscpu_output.data) with
    | none => rw [hres] at hpf; cases hpf
    | some res =>
      rw [hres] at hpf
      replace hpf : some (Platform.mk res) = some pf := hpf
      injection hpf with hpf
      subst hpf
      exact parseLinesAux_not_isolated _ [] (by intro q hq; cases hq) res hres
        q hq r hr w hw

/-! ### C1 (corrected): parse stores mappings in first-appearance order,
not sorted order -/

lemma firstSeen_nodup : ∀ l : List Int, (firstSeen l).Nodup := by
  intro l
  induction l with
  | nil => simp [firstSeen]
  | cons x xs ih =>
    rw [firstSeen, List.nodup_cons]
    constructor
    · intro hx
      have := (List.mem_filter.mp hx).2
      simp at this
    · exact List.Nodup.filter _ ih

lemma firstSeen_append (x : Int) :
    ∀ l : List Int,
      firstSeen (l ++ [x]) = if x ∈ l then firstSeen l else firstSeen l ++ [x] := by
  intro l
  induction l with
  | nil => simp [firstSeen]
  | cons y ys ih =>
    rw [List.cons_append]
    rw [show firstSeen (y :: (ys ++ [x])) =
      y :: (firstSeen (ys ++ [x])).filter (fun z => decide (z ≠ y)) from rfl]
    rw [show firstSeen (y :: ys) =
      y :: (firstSeen ys).filter (fun z => decide (z ≠ y)) from rfl]
    rw [ih]
    by_cases hxy : x = y
    · subst hxy
      rw [if_pos (List.mem_cons_self x ys)]
      by_cases hx : x ∈ ys
      · rw [if_pos hx]
      · rw [if_neg hx, List.filter_append]
        simp
    · by_cases hx : x ∈ ys
      · rw [if_pos hx, if_pos (List.mem_cons_of_mem _ hx)]
      · rw [if_neg hx, if_neg (by simp [hxy, hx]), List.filter_append]
        simp [hxy]

lemma dinsert_keys {β : Type} (k : Int) (v : β) :
    ∀ d : List (Int × β),
      (dinsert k v d).map Prod.fst =
        if k ∈ d.map Prod.fst then d.map Prod.fst else d.map Prod.fst ++ [k] := by
  intro d
  induction d with
  | nil => simp [dinsert]
  | cons q rest ih =>
    unfold dinsert
    by_cases hk : q.1 = k
    · rw [if_pos hk]
      simp [← hk]
    · rw [if_neg hk]
      simp only [List.map_cons]
      rw [ih]
      by_cases hmem : k ∈ rest.map Prod.fst
      · simp [hmem, hk]
      · simp [hmem, Ne.symm hk]

lemma dinsert_mem_iff {β : Type} (k : Int) (v : β) :
    ∀ d : List (Int × β), (d.map Prod.fst).Nodup →
      ∀ z : Int × β, z ∈ dinsert k v d ↔ (z = (k, v) ∨ (z ∈ d ∧ z.1 ≠ k)) := by
  intro d
  induction d with
  | nil =>
    intro _ z
    simp [dinsert]
  | cons q rest ih =>
    intro hnd z
    rw [List.map_cons, List.nodup_cons] at hnd
    obtain ⟨hq1, hndr⟩ := hnd
    unfold dinsert
    by_cases hk : q.1 = k
    · rw [if_pos hk]
      simp only [List.mem_cons]
      constructor
      · rintro (h | h)
        · exact Or.inl h
        · refine Or.inr ⟨Or.inr h, ?_⟩
          intro hzk
          exact hq1 (by rw [hk, ← hzk]; exact List.mem_map_of_mem _ h)
      · rintro (h | ⟨hz, hzk⟩)
        · exact Or.inl h
        · rcases hz with h | h
          · cases h
            exact absurd hk hzk
          · exact Or.inr h
    · rw [if_neg hk]
      simp only [List.mem_cons]
      rw [ih hndr z]
      constructor
      · rintro (h | h | ⟨hz, hzk⟩)
        · subst h
          exact Or.inr ⟨Or.inl rfl, fun hzk => hk hzk⟩
        · exact Or.inl h
        · exact Or.inr ⟨Or.inr hz, hzk⟩
      · rintro (h | ⟨hz, hzk⟩)
        · exact Or.inr (Or.inl h)
        · rcases hz with h | h
          · exact Or.inl h
          · exact Or.inr (Or.inr ⟨h, hzk⟩)

lemma dlookup_none_iff {β : Type} (k : Int) :
    ∀ d : List (Int × β), dlookup k d = none ↔ k ∉ d.map Prod.fst := by
  intro d
  induction d with
  | nil => simp [dlookup]
  | cons q rest ih =>
    unfold dlookup
    by_cases hk : q.1 = k
    · simp [hk]
    · simp [hk, ih, Ne.symm hk]

/-- The per-line step of `parse` stores mappings in first-appearance
order: after any prefix of triples, the socket keys are the socket ids
in order of first appearance, each socket's core keys are the core ids
of its lines in order of first appearance, and each core's cpu keys are
the cpu ids of its lines in order of first appearance. -/
lemma build_char (iso : List Int) :
    ∀ ts : List (Int × Int × Int),
      ((ts.foldl (parseStep iso) []).map Prod.fst =
        firstSeen (ts.map (fun tr => tr.2.2))) ∧
      (∀ q ∈ ts.foldl (parseStep iso) [],
        q.2.cores.map Prod.fst =
          firstSeen ((ts.filter (fun tr => decide (tr.2.2 = q.1))).map
            (fun tr => tr.2.1))) ∧
      (∀ q ∈ ts.foldl (parseStep iso) [], ∀ r ∈ q.2.cores,
        r.2.cpus.map Prod.fst =
          firstSeen ((ts.filter
            (fun tr => decide (tr.2.2 = q.1 ∧ tr.2.1 = r.1))).map
            (fun tr => tr.1))) := by
  intro ts
  induction ts using List.reverseRecOn with
  | nil =>
    refine ⟨rfl, ?_, ?_⟩
    · intro q hq
      cases hq
    · intro q hq
      cases hq
  | append_singleton ts t ih =>
    obtain ⟨ih1, ih2, ih3⟩ := ih
    obtain ⟨cpu, core, sock⟩ := t
    set d := ts.foldl (parseStep iso) [] with hd
    have hnd : (d.map Prod.fst).Nodup := by
      rw [ih1]; exact firstSeen_nodup _
    set socket := (dlookup sock d).getD (Socket.init sock []) with hsockdef
    set core0 := (dlookup core socket.cores).getD (Core.init core []) with hcore0def
    set core' : Core :=
      { core0 with
        cpus := dinsert cpu ⟨cpu, decide (cpu ∈ iso)⟩ core0.cpus } with hcore'def
    set socket' : Socket :=
      { socket with cores := dinsert core core' socket.cores } with hsock'def
    have hfold : (ts ++ [(cpu, core, sock)]).foldl (parseStep iso) [] =
        dinsert sock socket' d := by
      rw [List.foldl_append, hsock'def, hcore'def, hcore0def, hsockdef, hd]
      rfl
    have hsockcores : socket.cores.map Prod.fst =
        firstSeen ((ts.filter (fun tr => decide (tr.2.2 = sock))).map
          (fun tr => tr.2.1)) := by
      cases hs : dlookup sock d with
      | some s₀ =>
        have hsm : socket = s₀ := by rw [hsockdef, hs, Option.getD_some]
        have hmem : (sock, s₀) ∈ d := dlookup_mem sock s₀ d hs
        rw [hsm]
        exact ih2 (sock, s₀) hmem
      | none =>
        have hnm : sock ∉ d.map Prod.fst := (dlookup_none_iff sock d).mp hs
        have hnots : sock ∉ ts.map (fun tr => tr.2.2) := by
          intro hmem
          exact hnm (by rw [ih1]; exact (mem_firstSeen _ _).mpr hmem)
        have hfilter : ts.filter (fun tr => decide (tr.2.2 = sock)) = [] := by
          rw [List.filter_eq_nil_iff]
          intro tr htr
          simp only [decide_eq_true_eq]
          intro heq
          exact hnots (List.mem_map.mpr ⟨tr, htr, heq⟩)
        have hsm : socket = Socket.init sock [] := by
          rw [hsockdef, hs, Option.getD_none]
        rw [hsm, hfilter]
        rfl
    have hcorecpus : core0.cpus.map Prod.fst =
        firstSeen ((ts.filter
          (fun tr => decide (tr.2.2 = sock ∧ tr.2.1 = core))).map
          (fun tr => tr.1)) := by
      cases hc : dlookup core socket.cores with
      | some c₀ =>
        have hcm : core0 = c₀ := by rw [hcore0def, hc, Option.getD_some]
        have hmemc : (core, c₀) ∈ socket.cores := dlookup_mem core c₀ _ hc
        cases hs : dlookup sock d with
        | none =>
          have hsm : socket = Socket.init sock [] := by
            rw [hsockdef, hs, Option.getD_none]
          rw [hsm] at hmemc
          simp [Socket.init, sortByKey] at hmemc
        | some s₀ =>
          have hsm : socket = s₀ := by rw [hsockdef, hs, Option.getD_some]
          have hds : (sock, s₀) ∈ d := dlookup_mem sock s₀ d hs
          rw [hsm] at hmemc
          rw [hcm]
          exact ih3 (sock, s₀) hds (core, c₀) hmemc
      | none =>
        have hncore : core ∉ socket.cores.map Prod.fst :=
          (dlookup_none_iff core _).mp hc
        have hfilter : ts.filter
            (fun tr => decide (tr.2.2 = sock ∧ tr.2.1 = core)) = [] := by
          rw [List.filter_eq_nil_iff]
          intro tr htr
          simp only [decide_eq_true_eq, not_and]
          intro h22 h21
          apply hncore
          rw [hsockcores]
          refine (mem_firstSeen _ _).mpr ?_
          exact List.mem_map.mpr
            ⟨tr, List.mem_filter.mpr ⟨htr, by simp [h22]⟩, h21⟩
        have hcm : core0 = Core.init core [] := by
          rw [hcore0def, hc, Option.getD_none]
        rw [hcm, hfilter]
        rfl
    refine ⟨?_, ?_, ?_⟩
    · rw [hfold, dinsert_keys, ih1, List.map_append]
      simp only [List.map_cons, List.map_nil]
      rw [firstSeen_append]
      by_cases hmem : sock ∈ ts.map (fun tr => tr.2.2)
      · rw [if_pos ((mem_firstSeen _ _).mpr hmem), if_pos hmem]
      · rw [if_neg (fun hc => hmem ((mem_firstSeen _ _).mp hc)), if_neg hmem]
    · intro q hq
      rw [hfold] at hq
      rcases (dinsert_mem_iff sock socket' d hnd q).mp hq with hq' | ⟨hq', hqne⟩
      · subst hq'
        dsimp only
        rw [dinsert_keys, hsockcores]
        rw [List.filter_append]
        have hkeep : [(cpu, core, sock)].filter
            (fun tr => decide (tr.2.2 = sock)) = [(cpu, core, sock)] := by
          simp
        rw [hkeep]
        simp only [List.map_append, List.map_cons, List.map_nil]
        rw [firstSeen_append]
        by_cases hmemc : core ∈
            (ts.filter (fun tr => decide (tr.2.2 = sock))).map (fun tr => tr.2.1)
        · rw [if_pos ((mem_firstSeen _ _).mpr hmemc), if_pos hmemc]
        · rw [if_neg (fun hcon => hmemc ((mem_firstSeen _ _).mp hcon)),
            if_neg hmemc]
      · have hdrop : [(cpu, core, sock)].filter
            (fun tr => decide (tr.2.2 = q.1)) = [] := by
          simp [Ne.symm hqne]
        rw [List.filter_append, hdrop, List.append_nil]
        exact ih2 q hq'
    · intro q hq r hr
      rw [hfold] at hq
      rcases (dinsert_mem_iff sock socket' d hnd q).mp hq with hq' | ⟨hq', hqne⟩
      · subst hq'
        dsimp only at hr ⊢
        have hndc : (socket.cores.map Prod.fst).Nodup := by
          rw [hsockcores]; exact firstSeen_nodup _
        rcases (dinsert_mem_iff core core' socket.cores hndc r).mp hr with
          hr' | ⟨hr', hrne⟩
        · subst hr'
          dsimp only
          rw [dinsert_keys, hcorecpus]
          rw [List.filter_append]
          have hkeep : [(cpu, core, sock)].filter
              (fun tr => decide (tr.2.2 = sock ∧ tr.2.1 = core)) =
              [(cpu, core, sock)] := by
            simp
          rw [hkeep]
          simp only [List.map_append, List.map_cons, List.map_nil]
          rw [firstSeen_append]
          by_cases hmemc : cpu ∈
              (ts.filter (fun tr => decide (tr.2.2 = sock ∧ tr.2.1 = core))).map
                (fun tr => tr.1)
          · rw [if_pos ((mem_firstSeen _ _).mpr hmemc), if_pos hmemc]
          · rw [if_neg (fun hcon => hmemc ((mem_firstSeen _ _).mp hcon)),
              if_neg hmemc]
        · have hdrop : [(cpu, core, sock)].filter
              (fun tr => decide (tr.2.2 = sock ∧ tr.2.1 = r.1)) = [] := by
            simp [Ne.symm hrne]
          rw [List.filter_append, hdrop, List.append_nil]
          cases hs : dlookup sock d with
          | some s₀ =>
            have hsm : socket = s₀ := by rw [hsockdef, hs, Option.getD_some]
            have hds : (sock, s₀) ∈ d := dlookup_mem sock s₀ d hs
            rw [hsm] at hr'
            exact ih3 (sock, s₀) hds r hr'
          | none =>
            have hsm : socket = Socket.init sock [] := by
              rw [hsockdef, hs, Option.getD_none]
            rw [hsm] at hr'
            simp [Socket.init, sortByKey] at hr'
      · have hdrop : [(cpu, core, sock)].filter
            (fun tr => decide (tr.2.2 = q.1 ∧ tr.2.1 = r.1)) = [] := by
          simp [Ne.symm hqne]
        rw [List.filter_append, hdrop, List.append_nil]
        exact ih3 q hq' r hr

/-- The line loop equals: read the triples of the accepted lines, then
fold the per-line step over them. -/
lemma parseLinesAux_eq (iso : List Int) :
    ∀ (lines : List (List Char)) (acc : List (Int × Socket)),
      parseLinesAux iso acc lines =
        (triplesOf (lines.filter
          (fun l => decide (l ≠ [] ∧ l.head? ≠ some '#')))).map
          (fun ts => ts.foldl (parseStep iso) acc) := by
  intro lines
  induction lines with
  | nil => intro acc; rfl
  | cons line rest ih =>
    intro acc
    unfold parseLinesAux
    by_cases hl : line ≠ [] ∧ line.head? ≠ some '#'
    · rw [if_pos hl]
      have hfl : (line :: rest).filter
          (fun l => decide (l ≠ [] ∧ l.head? ≠ some '#')) =
          line :: rest.filter (fun l => decide (l ≠ [] ∧ l.head? ≠ some '#')) := by
        simp [hl.1, hl.2]
      rw [hfl]
      cases ht : parseLine line with
      | none =>
        unfold triplesOf
        rw [ht]
        rfl
      | some t =>
        unfold triplesOf
        rw [ht]
        have hlhs : (some t >>= fun t =>
            parseLinesAux iso (parseStep iso acc t) rest) =
            parseLinesAux iso (parseStep iso acc t) rest := rfl
        rw [hlhs, ih]
        cases htr : triplesOf (rest.filter
            (fun l => decide (l ≠ [] ∧ l.head? ≠ some '#'))) with
        | none => rfl
        | some r => rfl
    · rw [if_neg hl]
      have hfl : (line :: rest).filter
          (fun l => decide (l ≠ [] ∧ l.head? ≠ some '#')) =
          rest.filter (fun l => decide (l ≠ [] ∧ l.head? ≠ some '#')) := by
        simp only [List.filter_cons]
        rw [if_neg (by simpa using hl)]
      rw [hfl, ih]

/-- C1 counterexample: the input accepted by `parse` whose socket-0 lines
list core id 1 before core id 0 produces a cores mapping whose key order
is [1, 0] — not ascending.  (The claim asserts the final state is always
sorted ascending.) -/
theorem claim_C1_counterexample :
    ((parse "0,1,0\n1,0,0" none).map
      (fun pf => pf.sockets.map (fun q => (q.1, q.2.cores.map Prod.fst)))) =
      some [(0, [1, 0])] ∧
    ¬ List.Chain' (fun a b : Int => a < b) [1, 0] := by
  constructor
  · decide
  · intro hch
    rw [List.chain'_cons] at hch
    exact absurd hch.1 (by decide)

/-- C1 (amended): in the Platform returned by `parse` the mappings are
not re-sorted: the socket keys are the socket ids in first-appearance
order of the accepted lines, every socket's core keys are that socket's
core ids in first-appearance order, and every core's cpu keys are that
core's cpu ids in first-appearance order.  They are therefore ascending
exactly when the first appearances are ascending, and an input listing
ids out of order yields an out-of-order mapping
(`claim_C1_counterexample`). -/
theorem claim_C1 (lscpu_output : String) (isolated_cpus : Option (List Int))
    (pf : Platform) (h : parse lscpu_output isolated_cpus = some pf) :
    ∃ ts, triplesOf (acceptedLines lscpu_output) = some ts ∧
      pf.sockets.map Prod.fst = firstSeen (ts.map (fun tr => tr.2.2)) ∧
      (∀ q ∈ pf.sockets,
        q.2.cores.map Prod.fst =
          firstSeen ((ts.filter (fun tr => decide (tr.2.2 = q.1))).map
            (fun tr => tr.2.1))) ∧
      (∀ q ∈ pf.sockets, ∀ r ∈ q.2.cores,
        r.2.cpus.map Prod.fst =
          firstSeen ((ts.filter
            (fun tr => decide (tr.2.2 = q.1 ∧ tr.2.1 = r.1))).map
            (fun tr => tr.1))) := by
  unfold parse at h
  replace h : (parseLinesAux (isolated_cpus.getD []) []
      (splitCh '\n' lscpu_output.data)).bind
      (fun sockets => some (Platform.mk sockets)) = some pf := h
  rw [parseLinesAux_eq] at h
  cases htr : triplesOf ((splitCh '\n' lscpu_output.data).filter
      (fun l => decide (l ≠ [] ∧ l.head? ≠ some '#'))) with
  | none =>
    rw [htr] at h
    replace h : (none : Option Platform) = some pf := h
    cases h
  | some ts =>
    rw [htr] at h
    replace h : some (Platform.mk
        (ts.foldl (parseStep (isolated_cpus.getD [])) [])) = some pf := h
    injection h with h
    subst h
    refine ⟨ts, htr, ?_, ?_, ?_⟩
    · exact (build_char _ ts).1
    · exact (build_char _ ts).2.1
    · exact (build_char _ ts).2.2

theorem claim_C1_witness :
    ∃ ts, triplesOf (acceptedLines "0,0,0\n1,1,0") = some ts ∧
      (Platform.mk [(0, Socket.mk 0
        [(0, Core.mk 0 none [(0, CPU.mk 0 false)]),
         (1, Core.mk 1 none [(1, CPU.mk 1 false)])])]).sockets.map Prod.fst =
        firstSeen (ts.map (fun tr => tr.2.2)) := by
  obtain ⟨ts, h1, h2, _, _⟩ := claim_C1 "0,0,0\n1,1,0" none
    (Platform.mk [(0, Socket.mk 0
      [(0, Core.mk 0 none [(0, CPU.mk 0 false)]),
       (1, Core.mk 1 none [(1, CPU.mk 1 false)])])])
    (by decide)
  exact ⟨ts, h1, h2⟩

theorem claim_C10_witness :
    parse "0,0,0" none = parse "0,0,0" (some []) ∧
    ((0 : Int), CPU.mk 0 false).2.isolated = false :=
  ⟨(claim_C10 "0,0,0").1,
    (claim_C10 "0,0,0").2
      (Platform.mk [(0, Socket.mk 0 [(0, Core.mk 0 none [(0, CPU.mk 0 false)])])])
      (by decide)
      (0, Socket.mk 0 [(0, Core.mk 0 none [(0, CPU.mk 0 false)])]) (by decide)
      (0, Core.mk 0 none [(0, CPU.mk 0 false)]) (by decide)
      (0, CPU.mk 0 false) (by decide)⟩

/-! ### C4: spread is a round robin over the non-exhausted sockets -/

lemma onePass_snd_keys :
    ∀ st : List (Int × List α), ((onePass st).2).map Prod.fst = roundKeys st := by
  intro st
  induction st with
  | nil => rfl
  | cons q rest ih =>
    rcases q with ⟨s, l⟩
    cases l with
    | nil =>
      show ((onePass rest).2).map Prod.fst = roundKeys ((s, []) :: rest)
      rw [ih]
      rfl
    | cons c cs =>
      show ((s, cs) :: (onePass rest).2).map Prod.fst = _
      rw [List.map_cons, ih]
      rfl

lemma onePass_fst_keys {β : Type} :
    ∀ st : List (Int × List (Int × β)), TaggedOK st →
      ((onePass st).1).map Prod.fst = roundKeys st := by
  intro st
  induction st with
  | nil => intro _; rfl
  | cons q rest ih =>
    intro htag
    have htagr : TaggedOK rest := fun q hq => htag q (List.mem_cons_of_mem _ hq)
    rcases q with ⟨s, l⟩
    cases l with
    | nil =>
      show ((onePass rest).1).map Prod.fst = roundKeys ((s, []) :: rest)
      rw [ih htagr]
      rfl
    | cons z zs =>
      show (z :: (onePass rest).1).map Prod.fst = _
      rw [List.map_cons, ih htagr]
      have hz : z.1 = s :=
        htag (s, z :: zs) (List.mem_cons_self _ _) z (List.mem_cons_self _ _)
      rw [hz]
      rfl

lemma roundKeys_sublist_keys :
    ∀ st : List (Int × List α), List.Sublist (roundKeys st) (st.map Prod.fst) := by
  intro st
  induction st with
  | nil => exact List.Sublist.refl _
  | cons q rest ih =>
    rcases q with ⟨s, l⟩
    cases l with
    | nil => exact List.Sublist.cons _ ih
    | cons c cs => exact List.Sublist.cons₂ _ ih

lemma roundKeys_next_sublist :
    ∀ st : List (Int × List α),
      List.Sublist (roundKeys (onePass st).2) (roundKeys st) := by
  intro st
  induction st with
  | nil => exact List.Sublist.refl _
  | cons q rest ih =>
    rcases q with ⟨s, l⟩
    cases l with
    | nil => exact ih
    | cons c cs =>
      cases cs with
      | nil =>
        show List.Sublist (roundKeys ((s, []) :: (onePass rest).2)) (s :: roundKeys rest)
        exact List.Sublist.cons _ ih
      | cons c2 cs2 =>
        show List.Sublist (roundKeys ((s, c2 :: cs2) :: (onePass rest).2))
          (s :: roundKeys rest)
        exact List.Sublist.cons₂ _ ih

lemma onePass_snd_tagged {β : Type} :
    ∀ st : List (Int × List (Int × β)), TaggedOK st → TaggedOK (onePass st).2 := by
  intro st
  induction st with
  | nil => intro _; intro q hq; cases hq
  | cons q rest ih =>
    intro htag
    have htagr : TaggedOK rest := fun q hq => htag q (List.mem_cons_of_mem _ hq)
    rcases q with ⟨s, l⟩
    cases l with
    | nil => exact ih htagr
    | cons z zs =>
      intro w hw
      rcases List.mem_cons.mp hw with hw' | hw'
      · subst hw'
        intro v hv
        exact htag (s, z :: zs) (List.mem_cons_self _ _) v
          (List.mem_cons_of_mem _ hv)
      · exact ih htagr w hw'

lemma spreadLoop_keys {β : Type} (st : List (Int × List (Int × β)))
    (htag : TaggedOK st) :
    ∀ z ∈ spreadLoop st, z.1 ∈ roundKeys st := by
  generalize hm : spreadMeasure st = m
  induction m using Nat.strong_induction_on generalizing st with
  | _ m ih =>
    intro z hz
    by_cases h : st = []
    · subst h
      rw [spreadLoop_nil] at hz
      cases hz
    · subst hm
      rw [spreadLoop_cons st h] at hz
      rcases List.mem_append.mp hz with hz' | hz'
      · rw [← onePass_fst_keys st htag]
        exact List.mem_map_of_mem _ hz'
      · have hlt := onePass_snd_measure_lt st h
        have hnext := ih (spreadMeasure (onePass st).2) hlt (onePass st).2
          (onePass_snd_tagged st htag) rfl z hz'
        have hsub : List.Sublist (roundKeys (onePass st).2)
            ((onePass st).2.map Prod.fst) := roundKeys_sublist_keys _
        rw [onePass_snd_keys] at hsub
        exact hsub.subset hnext

lemma tagEntries_keys {β : Type} (st : List (Int × List β)) :
    (tagEntries st).map Prod.fst = st.map Prod.fst := by
  unfold tagEntries
  rw [List.map_map]
  rfl

lemma tagEntries_tagged {β : Type} (st : List (Int × List β)) :
    TaggedOK (tagEntries st) := by
  intro q hq z hz
  unfold tagEntries at hq
  obtain ⟨w, hw, hwq⟩ := List.mem_map.mp hq
  subst hwq
  obtain ⟨v, hv, hvz⟩ := List.mem_map.mp hz
  rw [← hvz]

lemma tagEntries_eq_nil_iff {β : Type} (st : List (Int × List β)) :
    tagEntries st = [] ↔ st = [] := by
  unfold tagEntries
  simp

lemma tagEntries_measure {β : Type} (st : List (Int × List β)) :
    spreadMeasure (tagEntries st) = spreadMeasure st := by
  unfold tagEntries spreadMeasure
  rw [List.map_map]
  congr 1
  apply List.map_congr_left
  intro q hq
  simp

lemma onePass_tag {β : Type} :
    ∀ st : List (Int × List β),
      ((onePass (tagEntries st)).1).map Prod.snd = (onePass st).1 ∧
      (onePass (tagEntries st)).2 = tagEntries (onePass st).2 := by
  intro st
  induction st with
  | nil => exact ⟨rfl, rfl⟩
  | cons q rest ih =>
    rcases q with ⟨s, l⟩
    cases l with
    | nil =>
      show ((onePass ((s, []) :: tagEntries rest)).1).map Prod.snd =
          (onePass rest).1 ∧
        (onePass ((s, []) :: tagEntries rest)).2 = tagEntries (onePass rest).2
      exact ih
    | cons c cs =>
      show (((s, c) :: (onePass (tagEntries rest)).1).map Prod.snd =
          c :: (onePass rest).1) ∧
        ((s, cs.map (fun v => (s, v))) :: (onePass (tagEntries rest)).2 =
          tagEntries ((s, cs) :: (onePass rest).2))
      constructor
      · rw [List.map_cons, ih.1]
      · show _ = (s, cs.map (fun v => (s, v))) :: tagEntries (onePass rest).2
        rw [ih.2]

lemma spreadLoop_tag {β : Type} (st : List (Int × List β)) :
    (spreadLoop (tagEntries st)).map Prod.snd = spreadLoop st := by
  generalize hm : spreadMeasure st = m
  induction m using Nat.strong_induction_on generalizing st with
  | _ m ih =>
    by_cases h : st = []
    · subst h
      rw [show tagEntries ([] : List (Int × List β)) = [] from rfl,
        spreadLoop_nil, spreadLoop_nil]
      rfl
    · subst hm
      have htne : tagEntries st ≠ [] := fun hc => h ((tagEntries_eq_nil_iff st).mp hc)
      rw [spreadLoop_cons st h, spreadLoop_cons _ htne, List.map_append]
      rw [(onePass_tag st).1, (onePass_tag st).2]
      have hlt := onePass_snd_measure_lt st h
      rw [ih (spreadMeasure (onePass st).2) hlt (onePass st).2 rfl]

lemma nodup_split {x : Int} {a b : List Int} (h : (a ++ x :: b).Nodup) :
    x ∉ a ∧ x ∉ b ∧ a.Nodup ∧ b.Nodup ∧ ∀ z ∈ a, z ∉ b := by
  rw [List.nodup_append] at h
  obtain ⟨ha, hxb, hdisj⟩ := h
  rw [List.nodup_cons] at hxb
  refine ⟨fun hx => hdisj hx (List.mem_cons_self _ _), hxb.1, ha, hxb.2, ?_⟩
  intro z hz hzb
  exact hdisj hz (List.mem_cons_of_mem _ hzb)

/-- In a duplicate-free list split as `a ++ s :: b`, an element that
occurs strictly before `s` (as witnessed by the two-element sublist
`[s', s]`) lies in the front part `a`. -/
lemma before_of_sublist {s s' : Int} {a b : List Int}
    (hnd : (a ++ s :: b).Nodup)
    (hsub : List.Sublist [s', s] (a ++ s :: b)) (hne : s' ≠ s) : s' ∈ a := by
  obtain ⟨u, v, huv, hu, hv⟩ := List.sublist_append_iff.mp hsub
  obtain ⟨hxa, hxb, -, -, -⟩ := nodup_split hnd
  cases u with
  | nil =>
    rw [List.nil_append] at huv
    subst huv
    cases hv with
    | cons _ h => exact absurd (h.subset (by simp)) hxb
    | cons₂ _ h => exact absurd rfl hne
  | cons w1 u1 =>
    cases u1 with
    | nil =>
      rw [List.cons_append, List.nil_append] at huv
      injection huv with h1 h2
      subst h1
      exact hu.subset (by simp)
    | cons w2 u2 =>
      rw [List.cons_append, List.cons_append] at huv
      injection huv with h1 hr
      injection hr with h2 hr2
      subst h1
      subst h2
      exact absurd (hu.subset (by simp)) hxa

/-- Dually, an element that occurs strictly after `s` lies in the back
part `b`. -/
lemma after_of_sublist {s s' : Int} {a b : List Int}
    (hnd : (a ++ s :: b).Nodup)
    (hsub : List.Sublist [s, s'] (a ++ s :: b)) (hne : s' ≠ s) : s' ∈ b := by
  obtain ⟨u, v, huv, hu, hv⟩ := List.sublist_append_iff.mp hsub
  obtain ⟨hxa, hxb, -, -, -⟩ := nodup_split hnd
  cases u with
  | nil =>
    rw [List.nil_append] at huv
    subst huv
    cases hv with
    | cons _ h => exact absurd (h.subset (by simp)) hxb
    | cons₂ _ h => exact h.subset (by simp)
  | cons w1 u1 =>
    cases u1 with
    | nil =>
      rw [List.cons_append, List.nil_append] at huv
      injection huv with h1 h2
      subst h1
      exact absurd (hu.subset (by simp)) hxa
    | cons w2 u2 =>
      rw [List.cons_append, List.cons_append] at huv
      injection huv with h1 hr
      injection hr with h2 hr2
      subst h1
      exact absurd (hu.subset (by simp)) hxa

/-- Round-robin structure of the spread loop, on socket-tagged states:
between two consecutive emissions from the same socket, every other
socket that is still emitted afterwards appears exactly once. -/
lemma spread_round_robin {β : Type} :
    ∀ st : List (Int × List (Int × β)),
      (st.map Prod.fst).Nodup → TaggedOK st →
      ∀ (a b c : List (Int × β)) (x y : Int × β),
        spreadLoop st = a ++ x :: (b ++ y :: c) →
        y.1 = x.1 →
        x.1 ∉ b.map Prod.fst →
        ∀ s', s' ≠ x.1 →
          (s' ∈ b.map Prod.fst ∨ s' ∈ c.map Prod.fst) →
          (b.map Prod.fst).count s' = 1 := by
  intro st
  generalize hm : spreadMeasure st = m
  induction m using Nat.strong_induction_on generalizing st with
  | _ m ih =>
    intro hnd htag a b c x y heq hyx hxb s' hs' hmem
    by_cases hst : st = []
    · subst hst
      rw [spreadLoop_nil] at heq
      exact absurd heq.symm (by simp)
    · subst hm
      rw [spreadLoop_cons st hst] at heq
      have htag' : TaggedOK (onePass st).2 := onePass_snd_tagged st htag
      have hnd' : ((onePass st).2.map Prod.fst).Nodup := by
        rw [onePass_snd_keys]
        exact hnd.sublist (roundKeys_sublist_keys st)
      have hlt := onePass_snd_measure_lt st hst
      have hK0 : ((onePass st).1).map Prod.fst = roundKeys st :=
        onePass_fst_keys st htag
      have hK0nd : (roundKeys st).Nodup := hnd.sublist (roundKeys_sublist_keys st)
      rcases List.append_eq_append_iff.mp heq with ⟨a', ha', hrest⟩ | ⟨o', hao, hrest⟩
      · -- x comes entirely after this round
        exact ih (spreadMeasure (onePass st).2) hlt (onePass st).2 rfl hnd' htag'
          a' b c x y hrest hyx hxb s' hs' hmem
      · cases o' with
        | nil =>
          -- x starts the remainder of the loop
          rw [List.nil_append] at hrest
          exact ih (spreadMeasure (onePass st).2) hlt (onePass st).2 rfl hnd' htag'
            [] b c x y (by rw [List.nil_append]; exact hrest.symm) hyx hxb s' hs' hmem
        | cons x₀ a'' =>
          rw [List.cons_append] at hrest
          injection hrest with hx0 hbyc
          subst hx0
          -- this round's output is a ++ x :: a''
          have h0 : a.map Prod.fst ++ x.1 :: a''.map Prod.fst = roundKeys st := by
            rw [← hK0, hao]
            simp [List.map_append]
          have hndK0' : (a.map Prod.fst ++ x.1 :: a''.map Prod.fst).Nodup := by
            rw [h0]; exact hK0nd
          obtain ⟨hx_na, hx_na'', hnda, hnda'', hdisj_a⟩ := nodup_split hndK0'
          have hmain : ∃ a₃, b = a'' ++ a₃ ∧
              spreadLoop (onePass st).2 = a₃ ++ y :: c := by
            rcases List.append_eq_append_iff.mp hbyc with ⟨b', hb', hyc⟩ | ⟨a₃, hb, hrest2⟩
            · cases b' with
              | nil =>
                rw [List.append_nil] at hb'
                subst hb'
                rw [List.nil_append] at hyc
                exact ⟨[], by simp, by rw [List.nil_append]; exact hyc.symm⟩
              | cons y₀ b'' =>
                exfalso
                rw [List.cons_append] at hyc
                injection hyc with hy0 hc
                subst hy0
                apply hx_na''
                rw [hb', ← hyx]
                simp [List.map_append]
            · exact ⟨a₃, hb, hrest2⟩
          obtain ⟨a₃, hb, hrest2⟩ := hmain
          subst hb
          have hxa₃ : x.1 ∉ a₃.map Prod.fst := by
            intro hcon
            exact hxb (by rw [List.map_append]; exact List.mem_append_right _ hcon)
          have hst' : (onePass st).2 ≠ [] := by
            intro h0'
            rw [h0', spreadLoop_nil] at hrest2
            exact absurd hrest2.symm (by simp)
          rw [spreadLoop_cons _ hst'] at hrest2
          have htag'' : TaggedOK (onePass (onePass st).2).2 :=
            onePass_snd_tagged _ htag'
          have hK1 : ((onePass (onePass st).2).1).map Prod.fst =
              roundKeys (onePass st).2 := onePass_fst_keys _ htag'
          have hK1nd : (roundKeys (onePass st).2).Nodup :=
            hnd'.sublist (roundKeys_sublist_keys _)
          have hK1subK0 : List.Sublist (roundKeys (onePass st).2) (roundKeys st) :=
            roundKeys_next_sublist st
          have hconfig : ∃ w', (onePass (onePass st).2).1 = a₃ ++ y :: w' ∧
              c = w' ++ spreadLoop (onePass (onePass st).2).2 := by
            rcases List.append_eq_append_iff.mp hrest2 with ⟨w, hw1, hw2⟩ | ⟨w, hw1, hw2⟩
            · exfalso
              have hy2 : y ∈ spreadLoop (onePass (onePass st).2).2 := by
                rw [hw2]; simp
              have hk : y.1 ∈ roundKeys (onePass (onePass st).2).2 :=
                spreadLoop_keys _ htag'' y hy2
              have hk2 : y.1 ∈ roundKeys (onePass st).2 :=
                (roundKeys_next_sublist _).subset hk
              rw [← hK1] at hk2
              apply hxa₃
              rw [hw1, List.map_append]
              exact List.mem_append_left _ (hyx ▸ hk2)
            · cases w with
              | nil =>
                exfalso
                rw [List.nil_append] at hw2
                have hy2 : y ∈ spreadLoop (onePass (onePass st).2).2 := by
                  rw [← hw2]; simp
                have hk : y.1 ∈ roundKeys (onePass (onePass st).2).2 :=
                  spreadLoop_keys _ htag'' y hy2
                have hk2 : y.1 ∈ roundKeys (onePass st).2 :=
                  (roundKeys_next_sublist _).subset hk
                rw [← hK1, hw1, List.append_nil] at hk2
                exact hxa₃ (hyx ▸ hk2)
              | cons y₁ w' =>
                rw [List.cons_append] at hw2
                injection hw2 with hy1 hc
                subst hy1
                exact ⟨w', hw1, hc⟩
          obtain ⟨w', hOUT1, hc⟩ := hconfig
          have h1 : a₃.map Prod.fst ++ x.1 :: w'.map Prod.fst =
              roundKeys (onePass st).2 := by
            rw [← hK1, hOUT1]
            simp [List.map_append, hyx]
          have hndK1' : (a₃.map Prod.fst ++ x.1 :: w'.map Prod.fst).Nodup := by
            rw [h1]; exact hK1nd
          obtain ⟨hx_na₃, hx_nw', hnda₃, hndw', hdisj₃⟩ := nodup_split hndK1'
          have hF1 : ∀ s'', s'' ≠ x.1 → s'' ∈ a₃.map Prod.fst →
              s'' ∈ a.map Prod.fst := by
            intro s'' hne hmem3
            have hsubK1 : List.Sublist ([s''] ++ [x.1])
                (a₃.map Prod.fst ++ x.1 :: w'.map Prod.fst) :=
              List.Sublist.append (List.singleton_sublist.mpr hmem3)
                (List.Sublist.cons₂ _ (List.nil_sublist _))
            have hsubK0 : List.Sublist [s'', x.1]
                (a.map Prod.fst ++ x.1 :: a''.map Prod.fst) := by
              have h2 : List.Sublist [s'', x.1] (roundKeys (onePass st).2) := by
                rw [← h1]; exact hsubK1
              have h3 := h2.trans hK1subK0
              rw [← h0] at h3
              exact h3
            exact before_of_sublist hndK0' hsubK0 hne
          have hF2 : ∀ s'', s'' ≠ x.1 → s'' ∈ w'.map Prod.fst →
              s'' ∈ a''.map Prod.fst := by
            intro s'' hne hmemw
            have hsubK1 : List.Sublist [x.1, s'']
                (a₃.map Prod.fst ++ x.1 :: w'.map Prod.fst) :=
              (List.Sublist.cons₂ _ (List.singleton_sublist.mpr hmemw)).trans
                (List.sublist_append_right _ _)
            have hsubK0 : List.Sublist [x.1, s'']
                (a.map Prod.fst ++ x.1 :: a''.map Prod.fst) := by
              have h2 : List.Sublist [x.1, s''] (roundKeys (onePass st).2) := by
                rw [← h1]; exact hsubK1
              have h3 := h2.trans hK1subK0
              rw [← h0] at h3
              exact h3
            exact after_of_sublist hndK0' hsubK0 hne
          have hcase : s' ∈ a''.map Prod.fst ∨ s' ∈ a₃.map Prod.fst := by
            rcases hmem with hm' | hm'
            · rw [List.map_append, List.mem_append] at hm'
              exact hm'
            · rw [hc, List.map_append, List.mem_append] at hm'
              rcases hm' with hm' | hm'
              · exact Or.inl (hF2 s' hs' hm')
              · obtain ⟨z, hz, hzs⟩ := List.mem_map.mp hm'
                have hk := spreadLoop_keys _ htag'' z hz
                have hk2 : z.1 ∈ roundKeys (onePass st).2 :=
                  (roundKeys_next_sublist _).subset hk
                rw [← h1, hzs] at hk2
                rcases List.mem_append.mp hk2 with h | h
                · exact Or.inr h
                · rcases List.mem_cons.mp h with h | h
                  · exact absurd h hs'
                  · exact Or.inl (hF2 s' hs' h)
          have hnotboth : ¬ (s' ∈ a''.map Prod.fst ∧ s' ∈ a₃.map Prod.fst) := by
            rintro ⟨h2, h3⟩
            exact hdisj_a s' (hF1 s' hs' h3) h2
          rw [List.map_append, List.count_append]
          rcases hcase with hcs | hcs
          · rw [List.count_eq_one_of_mem hnda'' hcs,
              List.count_eq_zero_of_not_mem (fun hcon => hnotboth ⟨hcs, hcon⟩)]
          · rw [List.count_eq_one_of_mem hnda₃ hcs,
              List.count_eq_zero_of_not_mem (fun hcon => hnotboth ⟨hcon, hcs⟩)]

/-- C4: the spread allocation (get_cores_general with mode "spread", for
both the isolated-only and full variants) never takes a core of some
socket twice before every other socket that still has remaining cores
has contributed one: in the socket-tagged run of the same loop — whose
second projection is exactly `allocate_spread` — between two consecutive
cores taken from the same socket (no core of it in `b`), every other
socket with remaining cores (appearing in `b` or later, in `c`) appears
exactly once.  The Nodup hypothesis is the dict invariant of
`Platform.sockets`: Python dict keys are unique. -/
theorem claim_C4 (p : Platform) (isolated : Bool)
    (hnd : (p.sockets.map Prod.fst).Nodup) :
    p.get_cores_general "spread" isolated = p.allocate_spread isolated ∧
    p.allocate_spread isolated = (p.spreadPairs isolated).map Prod.snd ∧
    ∀ (a b c : List (Int × Core)) (x y : Int × Core),
      p.spreadPairs isolated = a ++ x :: (b ++ y :: c) →
      y.1 = x.1 →
      x.1 ∉ b.map Prod.fst →
      ∀ s', s' ≠ x.1 →
        (s' ∈ b.map Prod.fst ∨ s' ∈ c.map Prod.fst) →
        (b.map Prod.fst).count s' = 1 := by
  refine ⟨rfl, (spreadLoop_tag (p.socket_cores isolated)).symm, ?_⟩
  intro a b c x y heq hyx hxb s' hs' hmem
  have hkeys : ((p.taggedCores isolated).map Prod.fst).Nodup := by
    unfold Platform.taggedCores
    rw [tagEntries_keys]
    have hsc : (p.socket_cores isolated).map Prod.fst = p.sockets.map Prod.fst := by
      unfold Platform.socket_cores
      rw [List.map_map]
      rfl
    rw [hsc]
    exact hnd
  have htag : TaggedOK (p.taggedCores isolated) := by
    unfold Platform.taggedCores
    exact tagEntries_tagged _
  exact spread_round_robin (p.taggedCores isolated) hkeys htag
    a b c x y heq hyx hxb s' hs' hmem

theorem claim_C4_witness :
    ([((1 : Int), Core.mk 20 none [])].map Prod.fst).count 1 = 1 :=
  (claim_C4 (Platform.mk
      [(0, Socket.mk 0 [(10, Core.mk 10 none []), (11, Core.mk 11 none [])]),
       (1, Socket.mk 1 [(20, Core.mk 20 none [])])]) false (by decide)).2.2
    [] [(1, Core.mk 20 none [])] [] (0, Core.mk 10 none []) (0, Core.mk 11 none [])
    (by decide) rfl (by decide) 1 (by decide) (Or.inl (by decide))
